import Mathlib

/-!
# Verification of the joblin persistent job queue core

Shallow embedding of the queue/scheduler core of the repository:
`src/joblin/queue.py` (class Queue), `src/joblin/job.py` (class Job) and
`src/joblin/_migrations.py` (class Migrator).  The SQLite job table is
modelled as a list of rows together with the AUTOINCREMENT counter; each
SQL statement of the source is translated into a pure function on that
state.  Timestamps (REAL columns) are modelled as integers: every claim
under study only compares, subtracts and clamps timestamps, which the
integer order captures exactly.
-/

/-- One row of the `job` table.  Columns as created by the version-0
schema (see `SCHEMA_VERSION_0` in `src/joblin/__init__.py`) plus the
`locked_at` column used throughout `queue.py`.  `NULL`able columns are
`Option`. The opaque payload column `data` is modelled as a `String`. -/
structure JobRow where
  id : Nat
  data : String
  created_at : Int
  starts_at : Int
  expires_at : Option Int
  completed_at : Option Int
  locked_at : Option Int
deriving DecidableEq

/-- The SQLite store backing a `Queue`: the `job` table rows (in insertion
order) and the `AUTOINCREMENT` counter supplying the next primary key. -/
structure DB where
  rows : List JobRow
  nextId : Nat
deriving DecidableEq

/-- SQL predicate `expires_at IS NULL OR now < expires_at` used by
`get_next_job`, `get_next_job_delay`, `count_pending_jobs`,
`lock_next_job` and `lock_next_job_delay` in `queue.py`. -/
def notExpired (now : Int) (r : JobRow) : Bool :=
  match r.expires_at with
  | none => true
  | some e => decide (now < e)

/-- SQL predicate `completed_at IS NULL AND (expires_at IS NULL OR now <
expires_at)`: the filter of `count_pending_jobs` (queue.py:306-307). -/
def isPending (now : Int) (r : JobRow) : Bool :=
  r.completed_at.isNone && notExpired now r

/-- The full filter of the next-job family (queue.py:228-230): pending and
additionally `locked_at IS NULL`. -/
def isEligible (now : Int) (r : JobRow) : Bool :=
  isPending now r && r.locked_at.isNone

/-- The `ORDER BY starts_at, id` comparison (non-strict). -/
def lexKeyLe (a b : JobRow) : Bool :=
  if a.starts_at = b.starts_at then decide (a.id ≤ b.id)
  else decide (a.starts_at < b.starts_at)

/-- Strict version of the `ORDER BY starts_at, id` order. -/
def lexKeyLt (a b : JobRow) : Prop :=
  a.starts_at < b.starts_at ∨ (a.starts_at = b.starts_at ∧ a.id < b.id)

instance (a b : JobRow) : Decidable (lexKeyLt a b) := by
  unfold lexKeyLt; infer_instance

/-- `SELECT ... ORDER BY starts_at, id LIMIT 1` over an already filtered
row list: the row minimal in the `(starts_at, id)` order, `none` on an
empty list. -/
def selectMin : List JobRow → Option JobRow
  | [] => none
  | r :: rs =>
    match selectMin rs with
    | none => some r
    | some m => if lexKeyLe r m then some r else some m

namespace Queue

/-- `Queue.get_job_by_id` (queue.py:192-206): `SELECT * FROM job WHERE
id = ?`, first matching row or `None`. -/
def get_job_by_id (db : DB) (job_id : Nat) : Option JobRow :=
  db.rows.find? (fun r => r.id == job_id)

/-- `Queue.get_next_job` (queue.py:208-236): select the row minimal in
`(starts_at, id)` among rows passing the eligibility filter. -/
def get_next_job (db : DB) (now : Int) : Option JobRow :=
  selectMin (db.rows.filter (isEligible now))

/-- `Queue.get_next_job_delay` (queue.py:238-286): same query projected to
`(id, starts_at)`, returning `(id, max(0, starts_at - now))`. -/
def get_next_job_delay (db : DB) (now : Int) : Option (Nat × Int) :=
  match selectMin (db.rows.filter (isEligible now)) with
  | none => none
  | some r => some (r.id, max 0 (r.starts_at - now))

/-- `Queue.count_pending_jobs` (queue.py:288-310): `SELECT COUNT(*)` with
the pending filter, which ignores `locked_at`. -/
def count_pending_jobs (db : DB) (now : Int) : Nat :=
  (db.rows.filter (isPending now)).length

/-- The `UPDATE job SET locked_at = ? WHERE id = ?` statement. -/
def setLockedAt (rows : List JobRow) (job_id : Nat) (t : Option Int) : List JobRow :=
  rows.map (fun r => if r.id == job_id then { r with locked_at := t } else r)

/-- `Queue.lock_job` (queue.py:312-347): inside one IMMEDIATE transaction,
`SELECT locked_at FROM job WHERE id = ?`; return `False` if the row is
absent or already locked, else set `locked_at` and return `True`.  The
returned pair is (result, state after the transaction). -/
def lock_job (db : DB) (job_id : Nat) (locked_at : Int) : Bool × DB :=
  match db.rows.find? (fun r => r.id == job_id) with
  | none => (false, db)
  | some r =>
    if r.locked_at.isSome then (false, db)
    else (true, { db with rows := setLockedAt db.rows job_id (some locked_at) })

/-- `Queue.lock_next_job` (queue.py:349-399): inside one IMMEDIATE
transaction, run the `get_next_job` query; on a row, set the snapshot's
`locked_at` to `now` and `UPDATE job SET locked_at = ? WHERE id = ?`. -/
def lock_next_job (db : DB) (now : Int) : Option JobRow × DB :=
  match selectMin (db.rows.filter (isEligible now)) with
  | none => (none, db)
  | some r =>
    (some { r with locked_at := some now },
     { db with rows := setLockedAt db.rows r.id (some now) })

/-- `Queue.lock_next_job_delay` (queue.py:401-459): same transaction on
the `(id, starts_at)` projection, returning `(id, max(0, starts_at -
now))` and locking the selected row. -/
def lock_next_job_delay (db : DB) (now : Int) : Option (Nat × Int) × DB :=
  match selectMin (db.rows.filter (isEligible now)) with
  | none => (none, db)
  | some r =>
    (some (r.id, max 0 (r.starts_at - now)),
     { db with rows := setLockedAt db.rows r.id (some now) })

/-- `Queue.complete_job` (queue.py:485-508): `UPDATE job SET completed_at
= ? WHERE id = ?`; the result is `rowcount > 0`. -/
def complete_job (db : DB) (job_id : Nat) (completed_at : Int) : Bool × DB :=
  (db.rows.any (fun r => r.id == job_id),
   { db with rows := db.rows.map (fun r =>
       if r.id == job_id then { r with completed_at := some completed_at } else r) })

/-- SQL predicate of `delete_expired_jobs` (queue.py:558-561):
`completed_at IS NULL AND expires_at IS NOT NULL AND now >= expires_at`. -/
def isExpiredRow (now : Int) (r : JobRow) : Bool :=
  r.completed_at.isNone &&
    (match r.expires_at with
     | none => false
     | some e => decide (now ≥ e))

/-- `Queue.delete_expired_jobs` (queue.py:540-563): delete every row
matching `isExpiredRow`, returning `rowcount`. -/
def delete_expired_jobs (db : DB) (now : Int) : Nat × DB :=
  ((db.rows.filter (isExpiredRow now)).length,
   { db with rows := db.rows.filter (fun r => !(isExpiredRow now r)) })

/-- Validity test enforced on INSERT by the version-0 schema constraints
`job_must_be_created_before_start` (`created_at <= starts_at`) and
`job_must_start_before_expiration` (`expires_at IS NULL OR starts_at <=
expires_at`).  Modelled from the spec: the current package loads this
schema from `migrations/*.sql` files that are not in the tree; the spec
states these invariants and they appear verbatim in `SCHEMA_VERSION_0`
of `src/joblin/__init__.py` (an earlier snapshot of the same schema). -/
def insertOk (created_at starts_at : Int) (expires_at : Option Int) : Bool :=
  decide (created_at ≤ starts_at) &&
    (match expires_at with
     | none => true
     | some e => decide (starts_at ≤ e))

/-- `Queue.add_job` (queue.py:95-147) with explicit timestamps: `INSERT
INTO job (data, created_at, starts_at, expires_at) VALUES (?, ?, ?, ?)
RETURNING id`, then build the `Job` snapshot with `completed_at=None,
locked_at=None`.  A constraint violation raises `sqlite3.IntegrityError`,
modelled as `Except.error ()` (the transaction inserts nothing). -/
def add_job (db : DB) (data : String) (created_at starts_at : Int)
    (expires_at : Option Int) : Except Unit (JobRow × DB) :=
  if insertOk created_at starts_at expires_at then
    let r : JobRow :=
      { id := db.nextId, data := data, created_at := created_at,
        starts_at := starts_at, expires_at := expires_at,
        completed_at := none, locked_at := none }
    .ok (r, { rows := db.rows ++ [r], nextId := db.nextId + 1 })
  else
    .error ()

end Queue

/-- `Job.delay` (job.py:115-124): `max(0.0, starts_at - queue.time())`,
with the queue's current time passed explicitly. -/
def JobRow.delay (r : JobRow) (now : Int) : Int :=
  max 0 (r.starts_at - now)

/-! ## Migrator (`src/joblin/_migrations.py`) -/

/-- `Migration` (NamedTuple) of `_migrations.py`. -/
structure Migration where
  version : Int
  sql : String
deriving DecidableEq

/-- `Migrations.after_version` (_migrations.py:18-20): only migrations
with version strictly greater than the given one. -/
def after_version (ms : List Migration) (v : Int) : List Migration :=
  ms.filter (fun m => decide (v < m.version))

/-- `Migrations.version_exists` (_migrations.py:22-23). -/
def version_exists (ms : List Migration) (v : Int) : Bool :=
  ms.any (fun m => m.version == v)

/-- Observable outcome of `Migrator.run_migrations`: either the early
return that applies no script and performs no write, or the transaction
executing the listed scripts in order and recording the last version. -/
inductive MigrationOutcome where
  | skipped
  | applied (scripts : List Migration)
deriving DecidableEq

/-- `Migrator.run_migrations` (_migrations.py:62-79): read the stored
version; when it is `>= 0` and not among the discovered versions, log a
warning and return without touching the store; otherwise apply every
migration after the stored version inside one transaction. -/
def run_migrations (ms : List Migration) (version : Int) : MigrationOutcome :=
  if version ≥ 0 && !(version_exists ms version) then
    .skipped
  else
    .applied (after_version ms version)

/-! ## Concrete stores used by the witnesses -/

/-- An unlocked, uncompleted, never-expiring job starting at time 3. -/
def exRow : JobRow :=
  { id := 1, data := "a", created_at := 0, starts_at := 3,
    expires_at := none, completed_at := none, locked_at := none }

def exDB : DB := { rows := [exRow], nextId := 2 }

/-- A locked but uncompleted, unexpired job. -/
def exLockedRow : JobRow :=
  { id := 7, data := "b", created_at := 0, starts_at := 0,
    expires_at := none, completed_at := none, locked_at := some 1 }

def exLockedDB : DB := { rows := [exLockedRow], nextId := 8 }

/-- A completed job whose expiration lies in the past. -/
def exDoneRow : JobRow :=
  { id := 3, data := "c", created_at := 0, starts_at := 0,
    expires_at := some 1, completed_at := some 2, locked_at := none }

def exDoneDB : DB := { rows := [exDoneRow], nextId := 4 }

/-- An uncompleted, unlocked job with starts_at = expires_at = 0. -/
def exZeroRow : JobRow :=
  { id := 5, data := "z", created_at := 0, starts_at := 0,
    expires_at := some 0, completed_at := none, locked_at := none }

def exZeroDB : DB := { rows := [exZeroRow], nextId := 6 }

/-- Rows passing the next-job eligibility filter at time `now`. -/
def eligibleRows (db : DB) (now : Int) : List JobRow :=
  db.rows.filter (isEligible now)

/-- Calling `Queue.lock_next_job` up to `n` times in sequence, collecting
the returned snapshots in order and threading the store through. -/
def lockRepeat : Nat → DB → Int → List JobRow × DB
  | 0, db, _ => ([], db)
  | n + 1, db, now =>
    match Queue.lock_next_job db now with
    | (none, db2) => ([], db2)
    | (some j, db2) =>
      let p := lockRepeat n db2 now
      (j :: p.1, p.2)

/-- Two eligible jobs with equal start times and increasing ids. -/
def exARow : JobRow :=
  { id := 1, data := "x", created_at := 0, starts_at := 0,
    expires_at := none, completed_at := none, locked_at := none }

def exBRow : JobRow :=
  { id := 2, data := "y", created_at := 0, starts_at := 0,
    expires_at := none, completed_at := none, locked_at := none }

def exPairDB : DB := { rows := [exARow, exBRow], nextId := 3 }

/-! ## Basic properties of the embedded order and predicates -/

theorem lexKeyLe_iff (a b : JobRow) :
    lexKeyLe a b = true ↔
      (a.starts_at < b.starts_at ∨ (a.starts_at = b.starts_at ∧ a.id ≤ b.id)) := by
  unfold lexKeyLe
  split <;> rename_i hs <;> simp [hs]

theorem lexKeyLe_refl (a : JobRow) : lexKeyLe a a = true := by
  rw [lexKeyLe_iff]; omega

theorem lexKeyLe_trans {a b c : JobRow} (h1 : lexKeyLe a b = true)
    (h2 : lexKeyLe b c = true) : lexKeyLe a c = true := by
  rw [lexKeyLe_iff] at h1 h2 ⊢; omega

theorem lexKeyLe_total {a b : JobRow} (h : ¬ lexKeyLe a b = true) :
    lexKeyLe b a = true := by
  rw [lexKeyLe_iff] at h ⊢; omega

theorem lexKeyLt_of_le_of_id_ne {a b : JobRow} (h : lexKeyLe a b = true)
    (hid : a.id ≠ b.id) : lexKeyLt a b := by
  rw [lexKeyLe_iff] at h; unfold lexKeyLt; omega

theorem isPending_iff (now : Int) (r : JobRow) :
    isPending now r = true ↔
      (r.completed_at = none ∧ ∀ e, r.expires_at = some e → now < e) := by
  unfold isPending notExpired
  cases r.expires_at <;> simp [Option.isNone_iff_eq_none]

theorem isEligible_iff (now : Int) (r : JobRow) :
    isEligible now r = true ↔
      (r.completed_at = none ∧ (∀ e, r.expires_at = some e → now < e) ∧
       r.locked_at = none) := by
  unfold isEligible
  rw [Bool.and_eq_true, isPending_iff, Option.isNone_iff_eq_none]
  tauto

theorem isExpiredRow_iff (now : Int) (r : JobRow) :
    Queue.isExpiredRow now r = true ↔
      (r.completed_at = none ∧ ∃ e, r.expires_at = some e ∧ e ≤ now) := by
  unfold Queue.isExpiredRow
  cases he : r.expires_at <;> simp [Option.isNone_iff_eq_none, he]

theorem isEligible_locked (now : Int) (r : JobRow) (t : Int) :
    isEligible now { r with locked_at := some t } = false := by
  unfold isEligible
  simp

theorem unlock_self {r : JobRow} (h : r.locked_at = none) :
    { r with locked_at := none } = r := by
  cases r
  simp_all

theorem selectMin_eq_none_iff (l : List JobRow) : selectMin l = none ↔ l = [] := by
  cases l with
  | nil => simp [selectMin]
  | cons r rs =>
    simp only [selectMin]
    constructor
    · intro h
      cases hm : selectMin rs <;> rw [hm] at h <;> simp at h
      split at h <;> simp_all
    · intro h
      exact absurd h (by simp)

theorem selectMin_mem : ∀ {l : List JobRow} {m : JobRow}, selectMin l = some m → m ∈ l := by
  intro l
  induction l with
  | nil => intro m h; simp [selectMin] at h
  | cons r rs ih =>
    intro m h
    cases hm : selectMin rs with
    | none =>
      simp only [selectMin, hm] at h
      simp at h
      simp [h]
    | some m0 =>
      simp only [selectMin, hm] at h
      by_cases hc : lexKeyLe r m0 = true
      · rw [if_pos hc] at h
        simp at h
        simp [h]
      · rw [if_neg hc] at h
        simp at h
        subst h
        exact List.mem_cons_of_mem _ (ih hm)

theorem selectMin_le : ∀ {l : List JobRow} {m : JobRow}, selectMin l = some m →
    ∀ x ∈ l, lexKeyLe m x = true := by
  intro l
  induction l with
  | nil => intro m h; simp [selectMin] at h
  | cons r rs ih =>
    intro m h x hx
    cases hm : selectMin rs with
    | none =>
      simp only [selectMin, hm] at h
      simp at h
      subst h
      have hnil : rs = [] := (selectMin_eq_none_iff rs).mp hm
      subst hnil
      simp at hx
      subst hx
      exact lexKeyLe_refl _
    | some m0 =>
      simp only [selectMin, hm] at h
      by_cases hc : lexKeyLe r m0 = true
      · rw [if_pos hc] at h
        simp at h
        subst h
        rcases List.mem_cons.mp hx with hx | hx
        · subst hx
          exact lexKeyLe_refl x
        · exact lexKeyLe_trans hc (ih hm x hx)
      · rw [if_neg hc] at h
        simp at h
        subst h
        rcases List.mem_cons.mp hx with hx | hx
        · subst hx
          exact lexKeyLe_total hc
        · exact ih hm x hx

theorem selectMin_isSome {l : List JobRow} (h : l ≠ []) :
    ∃ m, selectMin l = some m := by
  cases hm : selectMin l with
  | none => exact absurd ((selectMin_eq_none_iff l).mp hm) h
  | some m => exact ⟨m, rfl⟩

/-! ## C9 -/

/-- C9: when the stored schema version is unrecognized — greater than
every version in the discovered migration list (discovery always includes
the version -1 baseline) — `Migrator.run_migrations` returns before
opening its transaction: no script is applied, the store is untouched,
and nothing is raised (a warning is only logged). -/
theorem run_migrations_skips_unrecognized (ms : List Migration) (v : Int)
    (hbase : ∃ m ∈ ms, m.version = -1)
    (hgt : ∀ m ∈ ms, m.version < v) :
    run_migrations ms v = .skipped := by
  obtain ⟨m0, hm0, hv0⟩ := hbase
  have h0 : (0:Int) ≤ v := by have := hgt m0 hm0; omega
  have hne : version_exists ms v = false := by
    simp only [version_exists, List.any_eq_false, beq_iff_eq]
    intro m hm
    have := hgt m hm
    omega
  simp [run_migrations, hne, h0]

/-- C9 witness: stored version 5 against discovered versions -1, 0, 1. -/
theorem run_migrations_skips_unrecognized_witness :
    run_migrations [⟨-1, ""⟩, ⟨0, "v0"⟩, ⟨1, "v1"⟩] 5 = .skipped :=
  run_migrations_skips_unrecognized _ 5 ⟨⟨-1, ""⟩, by simp, rfl⟩ (by decide)

/-! ## C6 -/

/-- C6: `get_next_job_delay` and `lock_next_job_delay` return, for the
selected job, the pair `(id, max(0, starts_at - now))` — never negative —
and `Job.delay` likewise equals `max(0, starts_at - now)`. -/
theorem next_job_delay_clamped (db : DB) (now : Int) :
    (∀ i d, Queue.get_next_job_delay db now = some (i, d) →
       0 ≤ d ∧ ∃ r, Queue.get_next_job db now = some r ∧ i = r.id ∧
         d = max 0 (r.starts_at - now)) ∧
    (∀ i d, (Queue.lock_next_job_delay db now).1 = some (i, d) →
       0 ≤ d ∧ ∃ r, Queue.get_next_job db now = some r ∧ i = r.id ∧
         d = max 0 (r.starts_at - now)) ∧
    (∀ r : JobRow, 0 ≤ r.delay now ∧ r.delay now = max 0 (r.starts_at - now)) := by
  refine ⟨?_, ?_, fun r => ⟨le_max_left _ _, rfl⟩⟩
  · intro i d h
    cases hs : selectMin (db.rows.filter (isEligible now)) with
    | none => simp [Queue.get_next_job_delay, hs] at h
    | some r =>
      simp only [Queue.get_next_job_delay, hs, Option.some.injEq, Prod.mk.injEq] at h
      refine ⟨?_, r, ?_, h.1.symm, h.2.symm⟩
      · rw [← h.2]; exact le_max_left _ _
      · unfold Queue.get_next_job; exact hs
  · intro i d h
    cases hs : selectMin (db.rows.filter (isEligible now)) with
    | none => simp [Queue.lock_next_job_delay, hs] at h
    | some r =>
      simp only [Queue.lock_next_job_delay, hs, Option.some.injEq, Prod.mk.injEq] at h
      refine ⟨?_, r, ?_, h.1.symm, h.2.symm⟩
      · rw [← h.2]; exact le_max_left _ _
      · unfold Queue.get_next_job; exact hs

/-- C6 witness: at now = 1 the job starting at 3 yields delay 2. -/
theorem next_job_delay_clamped_witness :
    0 ≤ (2:Int) ∧ ∃ r, Queue.get_next_job exDB 1 = some r ∧ 1 = r.id ∧
      (2:Int) = max 0 (r.starts_at - 1) :=
  (next_job_delay_clamped exDB 1).1 1 2 rfl

/-! ## C7 -/

/-- C7: `count_pending_jobs(now)` counts the rows that are uncompleted and
unexpired regardless of `locked_at`: locking a job never changes the
count, and a locked-but-pending row is counted although `get_next_job`
never returns it. -/
theorem count_pending_ignores_locks (db : DB) (now : Int) :
    (∀ r : JobRow, isPending now r = true ↔
       (r.completed_at = none ∧ ∀ e, r.expires_at = some e → now < e)) ∧
    Queue.count_pending_jobs db now = (db.rows.filter (isPending now)).length ∧
    (∀ i t, Queue.count_pending_jobs (Queue.lock_job db i t).2 now =
       Queue.count_pending_jobs db now) ∧
    (∀ r ∈ db.rows, isPending now r = true → r.locked_at ≠ none →
       0 < Queue.count_pending_jobs db now ∧
       Queue.get_next_job db now ≠ some r) := by
  have hpt : ∀ (i : Nat) (t : Int) (r : JobRow),
      isPending now (if (r.id == i) = true then { r with locked_at := some t } else r)
        = isPending now r := by
    intro i t r
    split <;> rfl
  refine ⟨isPending_iff now, rfl, ?_, ?_⟩
  · intro i t
    cases hf : db.rows.find? (fun x => x.id == i) with
    | none => simp only [Queue.lock_job, hf]
    | some r0 =>
      by_cases hl : r0.locked_at.isSome = true
      · simp only [Queue.lock_job, hf, if_pos hl]
      · simp only [Queue.lock_job, hf, if_neg hl]
        unfold Queue.count_pending_jobs Queue.setLockedAt
        rw [List.filter_map, List.length_map, List.filter_congr]
        intro r hr
        simp only [Function.comp_apply]
        exact hpt i t r
  · intro r hr hp hl
    constructor
    · exact List.length_pos_of_mem (List.mem_filter.mpr ⟨hr, hp⟩)
    · intro h
      unfold Queue.get_next_job at h
      have hm := selectMin_mem h
      have helig := (List.mem_filter.mp hm).2
      have := ((isEligible_iff now r).mp helig).2.2
      exact hl this

/-- C7 witness: the locked pending job is counted yet never selected. -/
theorem count_pending_ignores_locks_witness :
    0 < Queue.count_pending_jobs exLockedDB 0 ∧
    Queue.get_next_job exLockedDB 0 ≠ some exLockedRow :=
  (count_pending_ignores_locks exLockedDB 0).2.2.2 exLockedRow
    (by simp [exLockedDB]) (by decide) (by decide)

/-! ## C8 -/

/-- C8: `delete_expired_jobs(now)` removes exactly the uncompleted rows
whose expiration is present and at or before `now`, returning their
count; every completed row survives regardless of its `expires_at`. -/
theorem delete_expired_spec (db : DB) (now : Int) :
    (∀ r : JobRow, Queue.isExpiredRow now r = true ↔
       (r.completed_at = none ∧ ∃ e, r.expires_at = some e ∧ e ≤ now)) ∧
    (Queue.delete_expired_jobs db now).1 =
      (db.rows.filter (Queue.isExpiredRow now)).length ∧
    (Queue.delete_expired_jobs db now).2.rows =
      db.rows.filter (fun r => !(Queue.isExpiredRow now r)) ∧
    (∀ r ∈ db.rows, (r ∈ (Queue.delete_expired_jobs db now).2.rows ↔
       Queue.isExpiredRow now r = false)) ∧
    (∀ r ∈ db.rows, r.completed_at ≠ none →
       r ∈ (Queue.delete_expired_jobs db now).2.rows) := by
  have hmem : ∀ r ∈ db.rows, (r ∈ (Queue.delete_expired_jobs db now).2.rows ↔
      Queue.isExpiredRow now r = false) := by
    intro r hr
    unfold Queue.delete_expired_jobs
    rw [List.mem_filter]
    simp [hr]
  refine ⟨isExpiredRow_iff now, rfl, rfl, hmem, ?_⟩
  intro r hr hc
  rw [hmem r hr]
  cases hx : Queue.isExpiredRow now r with
  | false => rfl
  | true => exact absurd ((isExpiredRow_iff now r).mp hx).1 hc

/-- C8 witness: a completed job with past expiration is kept. -/
theorem delete_expired_spec_witness :
    exDoneRow ∈ (Queue.delete_expired_jobs exDoneDB 10).2.rows :=
  (delete_expired_spec exDoneDB 10).2.2.2.2 exDoneRow (by simp [exDoneDB]) (by decide)

/-! ## C10 -/

/-- C10: `complete_job(id, t)` returns true for any existing id and sets
`completed_at` to `t` even when the job is already completed: a second
completion with a different timestamp overwrites the stored value. -/
theorem complete_job_overwrites (db : DB) (i : Nat) (t : Int) :
    ((Queue.complete_job db i t).1 = true ↔ ∃ r ∈ db.rows, r.id = i) ∧
    (∀ s ∈ (Queue.complete_job db i t).2.rows, s.id = i →
       s.completed_at = some t) ∧
    (∀ r ∈ db.rows, r.id = i →
       { r with completed_at := some t } ∈ (Queue.complete_job db i t).2.rows) ∧
    (∀ t2 : Int, ∀ r ∈ db.rows, r.id = i →
       (Queue.complete_job (Queue.complete_job db i t).2 i t2).1 = true ∧
       { r with completed_at := some t2 } ∈
         (Queue.complete_job (Queue.complete_job db i t).2 i t2).2.rows) := by
  refine ⟨?_, ?_, ?_, ?_⟩
  · simp [Queue.complete_job, List.any_eq_true]
  · intro s hs hsid
    obtain ⟨r, hr, hgr⟩ := List.mem_map.mp hs
    by_cases hidr : (r.id == i) = true
    · rw [if_pos hidr] at hgr
      rw [← hgr]
    · rw [if_neg hidr] at hgr
      subst hgr
      exact absurd (beq_iff_eq.mpr hsid) hidr
  · intro r hr hrid
    have : (if (r.id == i) = true then { r with completed_at := some t } else r)
        = { r with completed_at := some t } := by
      rw [if_pos (beq_iff_eq.mpr hrid)]
    rw [← this]
    exact List.mem_map_of_mem _ hr
  · intro t2 r hr hrid
    have hg : (if (r.id == i) = true then { r with completed_at := some t } else r)
        = { r with completed_at := some t } := by
      rw [if_pos (beq_iff_eq.mpr hrid)]
    have hmem1 : ({ r with completed_at := some t } : JobRow)
        ∈ (Queue.complete_job db i t).2.rows := by
      rw [← hg]
      exact List.mem_map_of_mem _ hr
    constructor
    · simp only [Queue.complete_job, List.any_eq_true]
      exact ⟨{ r with completed_at := some t }, hmem1, beq_iff_eq.mpr hrid⟩
    · have hg2 : (if (({ r with completed_at := some t } : JobRow).id == i) = true
          then { ({ r with completed_at := some t } : JobRow) with completed_at := some t2 }
          else { r with completed_at := some t })
          = { r with completed_at := some t2 } := by
        rw [if_pos (beq_iff_eq.mpr hrid)]
      rw [← hg2]
      exact List.mem_map_of_mem _ hmem1

/-- C10 witness: completing the already-completed job 3 again at time 9
returns true and overwrites the stored completion time 2. -/
theorem complete_job_overwrites_witness :
    (Queue.complete_job (Queue.complete_job exDoneDB 3 7).2 3 9).1 = true ∧
    { exDoneRow with completed_at := some 9 } ∈
      (Queue.complete_job (Queue.complete_job exDoneDB 3 7).2 3 9).2.rows :=
  (complete_job_overwrites exDoneDB 3 7).2.2.2 9 exDoneRow (by simp [exDoneDB]) rfl

/-! ## Lock-update helpers -/

theorem setLockedAt_locked {rows : List JobRow} {i : Nat} {t : Option Int} :
    ∀ s ∈ Queue.setLockedAt rows i t, s.id = i → s.locked_at = t := by
  intro s hs hsid
  obtain ⟨r, hr, hgr⟩ := List.mem_map.mp hs
  by_cases hidr : (r.id == i) = true
  · rw [if_pos hidr] at hgr
    rw [← hgr]
  · rw [if_neg hidr] at hgr
    subst hgr
    exact absurd (beq_iff_eq.mpr hsid) hidr

theorem setLockedAt_map_id (rows : List JobRow) (i : Nat) (t : Option Int) :
    (Queue.setLockedAt rows i t).map JobRow.id = rows.map JobRow.id := by
  unfold Queue.setLockedAt
  rw [List.map_map]
  apply List.map_congr_left
  intro r _
  simp only [Function.comp_apply]
  split <;> rfl

theorem find?_id_of_mem {rows : List JobRow} (hnd : (rows.map JobRow.id).Nodup)
    {r : JobRow} (hr : r ∈ rows) :
    rows.find? (fun x => x.id == r.id) = some r := by
  cases hf : rows.find? (fun x => x.id == r.id) with
  | none =>
    have := List.find?_eq_none.mp hf r hr
    simp at this
  | some r1 =>
    have h1 : r1 ∈ rows := List.mem_of_find?_eq_some hf
    have h2 : r1.id = r.id := by
      have := List.find?_some hf
      simpa using this
    rw [List.inj_on_of_nodup_map hnd h1 hr h2]

/-! ## C1 -/

/-- C1: `lock_job(id)` returns true and sets the job's `locked_at` exactly
when the row exists and is unlocked; it returns false leaving the store
unchanged when the row is absent or already locked; hence two sequential
calls on an existing unlocked id yield (true, false), the second leaving
the store as the first left it. -/
theorem lock_job_spec (db : DB) (hnd : (db.rows.map JobRow.id).Nodup)
    (i : Nat) (t : Int) :
    ((Queue.lock_job db i t).1 = true ↔
       ∃ r ∈ db.rows, r.id = i ∧ r.locked_at = none) ∧
    ((Queue.lock_job db i t).1 = false → (Queue.lock_job db i t).2 = db) ∧
    (∀ r ∈ db.rows, r.id = i → r.locked_at = none →
       { r with locked_at := some t } ∈ (Queue.lock_job db i t).2.rows) ∧
    (∀ r ∈ db.rows, r.id = i → r.locked_at = none → ∀ t2 : Int,
       (Queue.lock_job db i t).1 = true ∧
       (Queue.lock_job (Queue.lock_job db i t).2 i t2).1 = false ∧
       (Queue.lock_job (Queue.lock_job db i t).2 i t2).2 =
         (Queue.lock_job db i t).2) := by
  have hforward : ∀ r ∈ db.rows, r.id = i → r.locked_at = none →
      Queue.lock_job db i t =
        (true, { db with rows := Queue.setLockedAt db.rows i (some t) }) := by
    intro r hr hid hl
    have hf : db.rows.find? (fun x => x.id == i) = some r := by
      rw [← hid]
      exact find?_id_of_mem hnd hr
    simp only [Queue.lock_job, hf]
    rw [if_neg (by simp [hl] : ¬ r.locked_at.isSome = true)]
  refine ⟨⟨?_, ?_⟩, ?_, ?_, ?_⟩
  · intro h
    cases hf : db.rows.find? (fun x => x.id == i) with
    | none => simp [Queue.lock_job, hf] at h
    | some r0 =>
      by_cases hl : r0.locked_at.isSome = true
      · simp [Queue.lock_job, hf, hl] at h
      · refine ⟨r0, List.mem_of_find?_eq_some hf, ?_, ?_⟩
        · have := List.find?_some hf
          simpa using this
        · exact Option.not_isSome_iff_eq_none.mp hl
  · rintro ⟨r, hr, hid, hl⟩
    rw [hforward r hr hid hl]
  · intro h
    cases hf : db.rows.find? (fun x => x.id == i) with
    | none => simp [Queue.lock_job, hf]
    | some r0 =>
      by_cases hl : r0.locked_at.isSome = true
      · simp [Queue.lock_job, hf, hl]
      · exfalso
        simp only [Queue.lock_job, hf] at h
        rw [if_neg hl] at h
        simp at h
  · intro r hr hid hl
    rw [hforward r hr hid hl]
    have hif : (if (r.id == i) = true then { r with locked_at := some t } else r)
        = { r with locked_at := some t } := if_pos (beq_iff_eq.mpr hid)
    rw [← hif]
    exact List.mem_map_of_mem _ hr
  · intro r hr hid hl t2
    have h1 := hforward r hr hid hl
    have hlocked : ∀ s ∈ (Queue.lock_job db i t).2.rows, s.id = i →
        s.locked_at = some t := by
      intro s hs hsid
      rw [h1] at hs
      exact setLockedAt_locked s hs hsid
    refine ⟨by rw [h1], ?_⟩
    generalize (Queue.lock_job db i t).2 = db2 at hlocked ⊢
    cases hf2 : db2.rows.find? (fun x => x.id == i) with
    | none =>
      simp only [Queue.lock_job, hf2]
      constructor <;> trivial
    | some r1 =>
      have h1m : r1 ∈ db2.rows := List.mem_of_find?_eq_some hf2
      have h1id : r1.id = i := by
        have := List.find?_some hf2
        simpa using this
      have hs : r1.locked_at.isSome = true := by
        rw [hlocked r1 h1m h1id]
        rfl
      simp only [Queue.lock_job, hf2]
      rw [if_pos hs]
      constructor <;> trivial

/-- C1 witness: locking job 1 twice yields (true, false). -/
theorem lock_job_spec_witness :
    (Queue.lock_job exDB 1 4).1 = true ∧
    (Queue.lock_job (Queue.lock_job exDB 1 4).2 1 9).1 = false ∧
    (Queue.lock_job (Queue.lock_job exDB 1 4).2 1 9).2 =
      (Queue.lock_job exDB 1 4).2 :=
  (lock_job_spec exDB (by decide) 1 4).2.2.2 exRow (by simp [exDB]) rfl rfl 9

/-! ## C2 -/

/-- C2: `get_next_job(now)` (and the delay/locking variants before they
set the lock) selects exactly the row minimal in lexicographic
`(starts_at, id)` order among rows with `completed_at IS NULL AND
(expires_at IS NULL OR now < expires_at) AND locked_at IS NULL`, and
returns absent when no row qualifies. -/
theorem get_next_job_selects_min (db : DB)
    (hnd : (db.rows.map JobRow.id).Nodup) (now : Int) :
    (∀ r : JobRow, isEligible now r = true ↔
       (r.completed_at = none ∧ (∀ e, r.expires_at = some e → now < e) ∧
        r.locked_at = none)) ∧
    (Queue.get_next_job db now = none ↔
       ∀ r ∈ db.rows, isEligible now r = false) ∧
    (∀ r, Queue.get_next_job db now = some r →
       r ∈ db.rows ∧ isEligible now r = true ∧
       ∀ s ∈ db.rows, isEligible now s = true → s ≠ r → lexKeyLt r s) ∧
    ((Queue.get_next_job_delay db now).map Prod.fst =
       (Queue.get_next_job db now).map JobRow.id) ∧
    ((Queue.lock_next_job db now).1 =
       (Queue.get_next_job db now).map (fun r => { r with locked_at := some now })) ∧
    ((Queue.lock_next_job_delay db now).1 = Queue.get_next_job_delay db now) := by
  refine ⟨isEligible_iff now, ?_, ?_, ?_, ?_, ?_⟩
  · unfold Queue.get_next_job
    rw [selectMin_eq_none_iff, List.filter_eq_nil_iff]
    simp only [Bool.not_eq_true]
  · intro r h
    unfold Queue.get_next_job at h
    have hm := selectMin_mem h
    obtain ⟨hr, helig⟩ := List.mem_filter.mp hm
    refine ⟨hr, helig, ?_⟩
    intro s hs hse hne
    have hsf : s ∈ db.rows.filter (isEligible now) := List.mem_filter.mpr ⟨hs, hse⟩
    have hle := selectMin_le h s hsf
    apply lexKeyLt_of_le_of_id_ne hle
    intro hideq
    exact hne (List.inj_on_of_nodup_map hnd hs hr hideq.symm)
  · cases hs : selectMin (db.rows.filter (isEligible now)) <;>
      simp [Queue.get_next_job_delay, Queue.get_next_job, hs]
  · cases hs : selectMin (db.rows.filter (isEligible now)) <;>
      simp [Queue.lock_next_job, Queue.get_next_job, hs]
  · cases hs : selectMin (db.rows.filter (isEligible now)) <;>
      simp [Queue.lock_next_job_delay, Queue.get_next_job_delay, hs]

/-- C2 witness: in the one-job store the returned row is the minimum. -/
theorem get_next_job_selects_min_witness :
    exRow ∈ exDB.rows ∧ isEligible 0 exRow = true ∧
    ∀ s ∈ exDB.rows, isEligible 0 s = true → s ≠ exRow → lexKeyLt exRow s :=
  (get_next_job_selects_min exDB (by decide) 0).2.2.1 exRow rfl

/-! ## C4 -/

/-- C4: with `created_at <= starts_at` and (absent expiry or `starts_at <=
expires_at`) `add_job` succeeds, the returned snapshot carries the given
fields with `completed_at` and `locked_at` absent, and `get_job_by_id`
reads the inserted row back equal to the snapshot; with `starts_at <
created_at` or `expires_at < starts_at` the insert raises a constraint
violation and no row is persisted. -/
theorem add_job_spec (db : DB) (hid : ∀ r ∈ db.rows, r.id < db.nextId)
    (data : String) (c s : Int) (e : Option Int) :
    ((c ≤ s ∧ ∀ x, e = some x → s ≤ x) →
       ∃ j db2, Queue.add_job db data c s e = .ok (j, db2) ∧
         j.id = db.nextId ∧ j.data = data ∧ j.created_at = c ∧
         j.starts_at = s ∧ j.expires_at = e ∧ j.completed_at = none ∧
         j.locked_at = none ∧ db2.rows = db.rows ++ [j] ∧
         db2.nextId = db.nextId + 1 ∧
         Queue.get_job_by_id db2 j.id = some j) ∧
    ((s < c ∨ ∃ x, e = some x ∧ x < s) →
       Queue.add_job db data c s e = .error ()) := by
  constructor
  · rintro ⟨h1, h2⟩
    have hok : Queue.insertOk c s e = true := by
      unfold Queue.insertOk
      cases he : e with
      | none => simp [h1]
      | some x => simp [h1, h2 x he]
    refine ⟨{ id := db.nextId, data := data, created_at := c, starts_at := s,
              expires_at := e, completed_at := none, locked_at := none },
            ⟨db.rows ++
               [{ id := db.nextId, data := data, created_at := c,
                  starts_at := s, expires_at := e, completed_at := none,
                  locked_at := none }],
             db.nextId + 1⟩,
            ?_, rfl, rfl, rfl, rfl, rfl, rfl, rfl, rfl, rfl, ?_⟩
    · unfold Queue.add_job
      rw [if_pos hok]
    · unfold Queue.get_job_by_id
      rw [List.find?_append]
      have hnone : db.rows.find? (fun r => r.id == db.nextId) = none := by
        rw [List.find?_eq_none]
        intro x hx
        simp only [beq_iff_eq]
        have := hid x hx
        omega
      rw [hnone]
      simp
  · intro hbad
    have hko : Queue.insertOk c s e = false := by
      unfold Queue.insertOk
      rcases hbad with h | ⟨x, hx, hlt⟩
      · simp
        intro h2
        omega
      · rw [hx]
        simp
        intro h2
        omega
    unfold Queue.add_job
    rw [if_neg (by simp [hko])]

/-- C4 witness: a valid insert round-trips; an invalid one errors. -/
theorem add_job_spec_witness :
    (∃ j db2, Queue.add_job exDB "p" 0 1 (some 2) = .ok (j, db2) ∧
       j.id = exDB.nextId ∧ j.data = "p" ∧ j.created_at = 0 ∧
       j.starts_at = 1 ∧ j.expires_at = some 2 ∧ j.completed_at = none ∧
       j.locked_at = none ∧ db2.rows = exDB.rows ++ [j] ∧
       db2.nextId = exDB.nextId + 1 ∧
       Queue.get_job_by_id db2 j.id = some j) ∧
    Queue.add_job exDB "q" 5 1 none = .error () :=
  ⟨(add_job_spec exDB (by decide) "p" 0 1 (some 2)).1
     ⟨by decide, fun x hx => by injection hx with h; omega⟩,
   (add_job_spec exDB (by decide) "q" 5 1 none).2 (Or.inl (by decide))⟩

/-! ## C5 (corrected) -/

/-- C5 counterexample: an uncompleted, unlocked job with `starts_at =
expires_at = 0` is NOT treated as eligible at `now` equal to that shared
timestamp — the filter `now < expires_at` already excludes it, so
`get_next_job` returns absent on a store containing only that job,
contradicting the claim as stated. -/
theorem zero_width_counterexample :
    exZeroRow.starts_at = 0 ∧ exZeroRow.expires_at = some 0 ∧
    exZeroRow.completed_at = none ∧ exZeroRow.locked_at = none ∧
    exZeroRow ∈ exZeroDB.rows ∧
    isEligible 0 exZeroRow = false ∧
    Queue.get_next_job exZeroDB 0 = none := by
  refine ⟨rfl, rfl, rfl, rfl, ?_, rfl, rfl⟩
  simp [exZeroDB]

/-- C5 amended: a job with `starts_at = expires_at = t` (uncompleted,
unlocked) is eligible for next-job selection at every `now` strictly
before `t`, and at and after `t` it is excluded from selection and
counts as expired. -/
theorem zero_width_window (r : JobRow) (t : Int) (_h1 : r.starts_at = t)
    (h2 : r.expires_at = some t) (h3 : r.completed_at = none)
    (h4 : r.locked_at = none) :
    (∀ now : Int, now < t → isEligible now r = true) ∧
    (∀ now : Int, t ≤ now → isEligible now r = false) ∧
    (∀ now : Int, t ≤ now → ∀ db : DB, Queue.get_next_job db now ≠ some r) ∧
    (∀ now : Int, t ≤ now → Queue.isExpiredRow now r = true) := by
  have hfalse : ∀ now : Int, t ≤ now → isEligible now r = false := by
    intro now hnow
    cases hb : isEligible now r with
    | false => rfl
    | true =>
      have := ((isEligible_iff now r).mp hb).2.1 t h2
      omega
  refine ⟨?_, hfalse, ?_, ?_⟩
  · intro now hnow
    refine (isEligible_iff now r).mpr ⟨h3, ?_, h4⟩
    intro e he
    rw [h2] at he
    injection he with he
    omega
  · intro now hnow db h
    unfold Queue.get_next_job at h
    have hm := selectMin_mem h
    have := (List.mem_filter.mp hm).2
    rw [hfalse now hnow] at this
    exact Bool.false_ne_true this
  · intro now hnow
    exact (isExpiredRow_iff now r).mpr ⟨h3, t, h2, hnow⟩

/-- C5 witness: the zero-width job is eligible just before time 0 and
expired at time 0. -/
theorem zero_width_window_witness :
    isEligible (-1) exZeroRow = true ∧ isEligible 0 exZeroRow = false ∧
    Queue.isExpiredRow 0 exZeroRow = true :=
  ⟨(zero_width_window exZeroRow 0 rfl rfl rfl rfl).1 (-1) (by decide),
   (zero_width_window exZeroRow 0 rfl rfl rfl rfl).2.1 0 (by decide),
   (zero_width_window exZeroRow 0 rfl rfl rfl rfl).2.2.2 0 (by decide)⟩

/-! ## C3 -/

theorem lock_next_job_step_none {db : DB} {now : Int}
    (h : selectMin (eligibleRows db now) = none) :
    Queue.lock_next_job db now = (none, db) := by
  unfold eligibleRows at h
  simp only [Queue.lock_next_job, h]

theorem lock_next_job_step_some {db : DB} {now : Int} {r0 : JobRow}
    (h : selectMin (eligibleRows db now) = some r0) :
    Queue.lock_next_job db now =
      (some { r0 with locked_at := some now },
       { db with rows := Queue.setLockedAt db.rows r0.id (some now) }) := by
  unfold eligibleRows at h
  simp only [Queue.lock_next_job, h]

theorem nodup_after_lock {db : DB} {i : Nat} {t : Option Int}
    (hnd : (db.rows.map JobRow.id).Nodup) :
    ((Queue.setLockedAt db.rows i t).map JobRow.id).Nodup := by
  rw [setLockedAt_map_id]
  exact hnd

theorem eligibleRows_nodup {db : DB} (now : Int)
    (hnd : (db.rows.map JobRow.id).Nodup) :
    (eligibleRows db now).Nodup :=
  List.Nodup.sublist (List.filter_sublist _) (List.Nodup.of_map _ hnd)

theorem map_locked_id_of_no_match {i : Nat} {t : Option Int} :
    ∀ (l : List JobRow), (∀ r ∈ l, (r.id == i) = false) →
      l.map (fun r => if r.id == i then { r with locked_at := t } else r) = l := by
  intro l h
  induction l with
  | nil => rfl
  | cons a as ih =>
    simp only [List.map_cons]
    rw [if_neg (by simp [h a (List.mem_cons_self a as)])]
    rw [ih (fun r hr => h r (List.mem_cons_of_mem a hr))]

theorem eligibleRows_after_lock {db : DB} {now : Int} {r0 : JobRow}
    (hnd : (db.rows.map JobRow.id).Nodup)
    (h : selectMin (eligibleRows db now) = some r0) :
    eligibleRows { db with rows := Queue.setLockedAt db.rows r0.id (some now) } now
      = (eligibleRows db now).erase r0 := by
  have hr0E : r0 ∈ eligibleRows db now := selectMin_mem h
  have hr0rows : r0 ∈ db.rows := (List.mem_filter.mp hr0E).1
  have hEnd : (eligibleRows db now).Nodup := eligibleRows_nodup now hnd
  have hlhs : eligibleRows
      { db with rows := Queue.setLockedAt db.rows r0.id (some now) } now
      = (eligibleRows db now).filter (fun r => !(r.id == r0.id)) := by
    show (Queue.setLockedAt db.rows r0.id (some now)).filter (isEligible now)
        = (db.rows.filter (isEligible now)).filter (fun r => !(r.id == r0.id))
    unfold Queue.setLockedAt
    rw [List.filter_map, List.filter_filter]
    rw [List.filter_congr (q := fun r => !(r.id == r0.id) && isEligible now r)]
    · rw [← List.filter_filter]
      apply map_locked_id_of_no_match
      intro r hr
      have hmem := (List.mem_filter.mp hr).2
      simpa using hmem
    · intro r _
      simp only [Function.comp_apply]
      by_cases hb : (r.id == r0.id) = true
      · rw [if_pos hb]
        simp [isEligible_locked, hb]
      · rw [if_neg hb]
        simp at hb
        simp [hb]
  rw [hlhs, List.Nodup.erase_eq_filter hEnd]
  apply List.filter_congr
  intro x hx
  by_cases hxe : x = r0
  · subst hxe
    simp
  · have hxid : (x.id == r0.id) = false := by
      cases hb : (x.id == r0.id) with
      | false => rfl
      | true =>
        exfalso
        apply hxe
        exact List.inj_on_of_nodup_map hnd (List.mem_filter.mp hx).1 hr0rows
          (by simpa using hb)
    simp [hxid, hxe]

/-- C3: with `n` eligible jobs at a fixed time `now`, `n` successive
`lock_next_job` calls return each eligible job exactly once (unlocking the
snapshots recovers exactly the eligible rows), in strictly ascending
`(starts_at, id)` order — in particular in increasing id order at equal
start times — every returned snapshot carries `locked_at = now`, and the
`(n+1)`-th call returns absent. -/
theorem lock_next_job_enumerates (db : DB) (now : Int) (n : Nat)
    (hnd : (db.rows.map JobRow.id).Nodup)
    (hn : (eligibleRows db now).length = n) :
    ((lockRepeat n db now).1.map (fun j => { j with locked_at := none })).Perm
        (eligibleRows db now) ∧
    List.Pairwise lexKeyLt (lockRepeat n db now).1 ∧
    (∀ j ∈ (lockRepeat n db now).1, j.locked_at = some now) ∧
    (Queue.lock_next_job (lockRepeat n db now).2 now).1 = none := by
  induction n generalizing db with
  | zero =>
    have hE : eligibleRows db now = [] := List.length_eq_zero.mp hn
    have hnone : selectMin (eligibleRows db now) = none := by
      rw [hE]
      rfl
    refine ⟨by simp [lockRepeat, hE], by simp [lockRepeat], by simp [lockRepeat], ?_⟩
    show (Queue.lock_next_job db now).1 = none
    rw [lock_next_job_step_none hnone]
  | succ n ih =>
    have hne : eligibleRows db now ≠ [] := by
      intro h
      rw [h] at hn
      simp at hn
    obtain ⟨r0, h0⟩ := selectMin_isSome hne
    have hr0E : r0 ∈ eligibleRows db now := selectMin_mem h0
    have hr0rows : r0 ∈ db.rows := (List.mem_filter.mp hr0E).1
    have hr0elig : isEligible now r0 = true := (List.mem_filter.mp hr0E).2
    have hr0lock : r0.locked_at = none := ((isEligible_iff now r0).mp hr0elig).2.2
    have hEnd : (eligibleRows db now).Nodup := eligibleRows_nodup now hnd
    have hstep := lock_next_job_step_some h0
    have hE2 : eligibleRows
        { db with rows := Queue.setLockedAt db.rows r0.id (some now) } now
        = (eligibleRows db now).erase r0 := eligibleRows_after_lock hnd h0
    have hnd2 : (({ db with rows := Queue.setLockedAt db.rows r0.id (some now) }
        : DB).rows.map JobRow.id).Nodup := nodup_after_lock hnd
    have hn2 : (eligibleRows
        { db with rows := Queue.setLockedAt db.rows r0.id (some now) } now).length
        = n := by
      rw [hE2, List.length_erase_of_mem hr0E, hn]
      omega
    obtain ⟨IH1, IH2, IH3, IH4⟩ :=
      ih { db with rows := Queue.setLockedAt db.rows r0.id (some now) } hnd2 hn2
    have hrep : lockRepeat (n + 1) db now =
        ({ r0 with locked_at := some now } ::
           (lockRepeat n { db with rows := Queue.setLockedAt db.rows r0.id (some now) } now).1,
         (lockRepeat n { db with rows := Queue.setLockedAt db.rows r0.id (some now) } now).2) := by
      simp only [lockRepeat, hstep]
    rw [hrep]
    rw [hE2] at IH1
    refine ⟨?_, ?_, ?_, IH4⟩
    · simp only [List.map_cons]
      have hcol : ({ ({ r0 with locked_at := some now } : JobRow) with
          locked_at := none } : JobRow) = r0 := unlock_self hr0lock
      rw [hcol]
      exact (IH1.cons r0).trans (List.perm_cons_erase hr0E).symm
    · refine List.Pairwise.cons ?_ IH2
      intro j hj
      have hjmem : ({ j with locked_at := none } : JobRow)
          ∈ (eligibleRows db now).erase r0 := by
        apply IH1.mem_iff.mp
        exact List.mem_map_of_mem _ hj
      have hsE : ({ j with locked_at := none } : JobRow) ∈ eligibleRows db now :=
        List.erase_subset _ _ hjmem
      have hsrows : ({ j with locked_at := none } : JobRow) ∈ db.rows :=
        (List.mem_filter.mp hsE).1
      have hsne : ({ j with locked_at := none } : JobRow) ≠ r0 :=
        ((List.Nodup.mem_erase_iff hEnd).mp hjmem).1
      have hle := selectMin_le h0 _ hsE
      have hidne : r0.id ≠ ({ j with locked_at := none } : JobRow).id := by
        intro heq
        exact hsne (List.inj_on_of_nodup_map hnd hsrows hr0rows heq.symm)
      exact lexKeyLt_of_le_of_id_ne hle hidne
    · intro j hj
      rcases List.mem_cons.mp hj with hj | hj
      · rw [hj]
      · exact IH3 j hj

/-- C3 witness: two jobs with equal start times are claimed in id order
and the third call returns absent. -/
theorem lock_next_job_enumerates_witness :
    List.Pairwise lexKeyLt (lockRepeat 2 exPairDB 0).1 ∧
    (∀ j ∈ (lockRepeat 2 exPairDB 0).1, j.locked_at = some 0) ∧
    (Queue.lock_next_job (lockRepeat 2 exPairDB 0).2 0).1 = none :=
  ⟨(lock_next_job_enumerates exPairDB 0 2 (by decide) (by decide)).2.1,
   (lock_next_job_enumerates exPairDB 0 2 (by decide) (by decide)).2.2.1,
   (lock_next_job_enumerates exPairDB 0 2 (by decide) (by decide)).2.2.2⟩
